import Mathlib

/-!
Verification of the hotsos event-tally aggregation engine and its companions.

The Python sources are shallowly embedded as follows.

* Python strings are modelled as their sequences of characters, `List Char`.
  Python compares strings lexicographically by code point, which coincides
  with the `LinearOrder (List Char)` order.
* Python dictionaries (which preserve insertion order) are modelled as
  association lists; inserting a fresh key appends it at the end, updating an
  existing key leaves its position unchanged.
* Code that can raise at runtime (the time-group regular expression failing
  to match) is modelled in `Option`: `none` is the crash.
-/

/-- A Python string: its sequence of characters. -/
abbrev PyStr := List Char

/-- One searchkit match record as consumed by
`AgentExceptionCheckResults._tally_results`.  The fields are the three
capture groups `result.get(1)` (date), `result.get(2)` (time) and
`result.get(3)` (log entry / exception name). -/
structure MatchRecord where
  g1 : PyStr
  g2 : PyStr
  g3 : PyStr
deriving DecidableEq

/-- Python `d.get(k)` / `k in d` on an ordered dictionary. -/
def alGet {β : Type} (m : List (PyStr × β)) (k : PyStr) : Option β :=
  match m with
  | [] => none
  | (k', v) :: rest => if k' = k then some v else alGet rest k

/-- The effect of `if key not in d: d[key] = 0` followed by `d[key] += 1` on an
ordered dictionary: a fresh key is appended with count 1, an existing key is
incremented in place. -/
def alBump (m : List (PyStr × Nat)) (k : PyStr) : List (PyStr × Nat) :=
  match m with
  | [] => [(k, 1)]
  | (k', v) :: rest => if k' = k then (k', v + 1) :: rest else (k', v) :: alBump rest k

/-- The effect on the outer dictionary of
`if exc_name not in exceptions: exceptions[exc_name] = {}` followed by the
bucket-count update of `exceptions[exc_name]`. -/
def outerBump (m : List (PyStr × List (PyStr × Nat))) (n k : PyStr) :
    List (PyStr × List (PyStr × Nat)) :=
  match m with
  | [] => [(n, [(k, 1)])]
  | (n', im) :: rest =>
      if n' = n then (n', alBump im k) :: rest else (n', im) :: outerBump rest n k

/-- Python `s.strip(c)` for a single strip character: drop every leading and
trailing occurrence of `c`. -/
def pyStrip (c : Char) (s : PyStr) : PyStr :=
  ((s.dropWhile (· = c)).reverse.dropWhile (· = c)).reverse

/-- The exception name extracted from a match record:
`result.get(3).strip("'")`. -/
def excName (r : MatchRecord) : PyStr :=
  pyStrip '\'' r.g3

/-- Backtracking for the second `\d+` of the pattern `(\d+:\d+).+`: the
largest `k` with `1 ≤ k ≤ fuel` such that after consuming `k` digits at the
head of `l2` there remains at least one character other than a newline (the
regex `.` does not match a newline).  `none` when no such `k` exists. -/
def findK (l2 : List Char) : Nat → Option Nat
  | 0 => none
  | k + 1 =>
      match (l2.drop (k + 1)).head? with
      | some c => if c = '\n' then findK l2 k else some (k + 1)
      | none => findK l2 k

/-- Assemble the capture group `\d+:\d+` from the first digit run `d1`, the
second digit run `d2` and the backtracking result for the second `\d+`. -/
def matchEmit (d1 d2 : List Char) : Option Nat → Option (List Char)
  | some k => some (d1 ++ ':' :: d2.take k)
  | none => none

/-- Continue an anchored attempt of `(\d+:\d+).+` after the first digit run
`d1`: the next character must be `:`, then the second digit run and the
trailing `.+` are matched. -/
def matchColon (d1 : List Char) : List Char → Option (List Char)
  | [] => none
  | c0 :: l2 =>
      if c0 = ':' then
        matchEmit d1 (l2.takeWhile Char.isDigit) (findK l2 (l2.takeWhile Char.isDigit).length)
      else none

/-- One anchored attempt of Python's `re.compile(r'(\d+:\d+).+').search` at
the head of `l`, returning capture group 1 on success.  `\d+` is greedy with
backtracking; only its maximal run can be followed by `:`, so the first run
is exactly `takeWhile isDigit`.  (`\d` is modelled as an ASCII digit; the
timestamps this runs on only contain ASCII.) -/
def matchAt (l : List Char) : Option (List Char) :=
  if (l.takeWhile Char.isDigit).isEmpty then none
  else matchColon (l.takeWhile Char.isDigit) (l.drop (l.takeWhile Char.isDigit).length)

/-- Python `re.compile(r'(\d+:\d+).+').search(s)[1]`: scan start positions
left to right and return the first successful match's capture group; `none`
models the `TypeError` crash of subscripting a failed search. -/
def reSearchGroup : List Char → Option (List Char)
  | [] => none
  | c :: rest =>
      match matchAt (c :: rest) with
      | some g => some g
      | none => reSearchGroup rest

/-- The bucket key of one match record, from `_tally_results`:
`"{}_{}".format(ts_date, ts_time)` when
`HotSOSConfig.event_tally_granularity == 'time'` (with `ts_time` the
`HH:MM` regex capture on group 2) and `str(ts_date)` otherwise. -/
def bucketKey (granularity : PyStr) (r : MatchRecord) : Option PyStr :=
  if granularity = "time".data then
    (reSearchGroup r.g2).map (fun t => r.g1 ++ '_' :: t)
  else
    some r.g1

/-- The aggregation table built by the first loop of `_tally_results`:
exception name to ordered map from bucket key to count. -/
abbrev TallyTable := List (PyStr × List (PyStr × Nat))

/-- One iteration of the first loop of `_tally_results`.  (In the source the
outer dictionary entry for `exc_name` is created before the bucket key is
computed; when the key computation crashes nothing is returned, so combining
the two updates after a successful key computation is observationally the
same.) -/
def tallyAdd (granularity : PyStr) (acc : TallyTable) (r : MatchRecord) :
    Option TallyTable :=
  match bucketKey granularity r with
  | none => none
  | some key => some (outerBump acc (excName r) key)

/-- The first loop of `_tally_results` over all search results. -/
def tallyLoop (granularity : PyStr) (acc : TallyTable) :
    List MatchRecord → Option TallyTable
  | [] => some acc
  | r :: rest =>
      match tallyAdd granularity acc r with
      | none => none
      | some acc' => tallyLoop granularity acc' rest

/-- Insert into a list sorted by `le`, after any entries `y` with `le y x`.
Used to model Python's stable `sorted`. -/
def insertLe {α : Type} (le : α → α → Bool) (x : α) : List α → List α
  | [] => [x]
  | y :: ys => if le y x then y :: insertLe le x ys else x :: y :: ys

/-- Insertion sort by `le`; on lists with pairwise-distinct keys it agrees
with any correct sort, in particular Python's `sorted`. -/
def insSort {α : Type} (le : α → α → Bool) : List α → List α
  | [] => []
  | x :: xs => insertLe le x (insSort le xs)

/-- Python `sorted(d.items(), key=lambda x: x[0])` rebuilt into a dictionary:
the bucket map ordered by ascending key. -/
def sortBuckets (m : List (PyStr × Nat)) : List (PyStr × Nat) :=
  insSort (fun a b => decide (a.1 ≤ b.1)) m

/-- `AgentExceptionCheckResults._tally_results`.  The outer `none` is the
fail-fast crash on a malformed time capture group; `some none` is the
`return` of Python `None` when no records were supplied; `some (some t)` is
the sorted tally table. -/
def tallyResults (granularity : PyStr) (results : List MatchRecord) :
    Option (Option TallyTable) :=
  match tallyLoop granularity [] results with
  | none => none
  | some exceptions =>
      if exceptions = [] then some none
      else some (some (exceptions.map (fun p => (p.1, sortBuckets p.2))))

/-- Sum of the per-bucket counts of one exception's bucket map. -/
def sumVals (m : List (PyStr × Nat)) : Nat :=
  (m.map Prod.snd).sum

/-- Total number of bucket entries of a tally table. -/
def totalBuckets (t : TallyTable) : Nat :=
  (t.map (fun p => p.2.length)).sum

/-- The bucket keys a tally table holds for exception name `n`. -/
def keysOf (t : TallyTable) (n : PyStr) : List PyStr :=
  ((alGet t n).getD []).map Prod.fst

/-- Number of buckets a tally table holds for exception name `n`. -/
def lenBuckets (t : TallyTable) (n : PyStr) : Nat :=
  ((alGet t n).getD []).length

/-- The bucket keys the records themselves determine for exception name `n`
under a given granularity. -/
def keyList (granularity : PyStr) (n : PyStr) (rs : List MatchRecord) : List PyStr :=
  rs.filterMap (fun r => if excName r = n then bucketKey granularity r else none)

/-- The date part of a time-granularity bucket key: everything before the
last underscore (time-granularity keys are `date ++ '_' :: hhmm` with an
underscore-free `hhmm`, so this recovers the date). -/
def dateOfKey (s : PyStr) : PyStr :=
  let rev := s.reverse
  let suff := rev.takeWhile (fun c => !(c = '_'))
  (rev.drop (suff.length + 1)).reverse

/-- The insertion-ordered list of exception names a run of the tally loop
produces, starting from the names already present. -/
def namesFold (ns : List PyStr) (rs : List MatchRecord) : List PyStr :=
  rs.foldl (fun ns r => if excName r ∈ ns then ns else ns ++ [excName r]) ns

/-- Well-formedness of a tally table: outer names are pairwise distinct and
each inner bucket map has pairwise-distinct keys (both hold for Python
dictionaries by construction). -/
def TallyWF (t : TallyTable) : Prop :=
  (t.map Prod.fst).Nodup ∧ ∀ p ∈ t, (p.2.map Prod.fst).Nodup

/-! ## Result cache (`AgentExceptionChecks.run` and searchkit's `MPCache`)

The `MPCache` store itself lives in searchkit; per the spec it is a plain
key-value store (`get` returns the stored payload or absence, `set` writes
through).  The payload of interest, `agent_exceptions`, is a Python
dictionary keyed by log level; the dictionary is modelled as an association
list over an arbitrary value type. -/

/-- The key-value entries of one `MPCache`. -/
structure MPCacheState (α : Type) where
  entries : List (String × α)
deriving DecidableEq

/-- Lookup in the key-value entries. -/
def mpGetEntries {α : Type} (m : List (String × α)) (k : String) : Option α :=
  match m with
  | [] => none
  | (k', v) :: rest => if k' = k then some v else mpGetEntries rest k

/-- `MPCache.get`: the stored payload for a key, or absence. -/
def mpGet {α : Type} (st : MPCacheState α) (k : String) : Option α :=
  mpGetEntries st.entries k

/-- `MPCache.set`: write a payload under a key (update in place or append). -/
def mpSetEntries {α : Type} (m : List (String × α)) (k : String) (v : α) :
    List (String × α) :=
  match m with
  | [] => [(k, v)]
  | (k', v') :: rest => if k' = k then (k', v) :: rest else (k', v') :: mpSetEntries rest k v

/-- `MPCache.set` on a cache state. -/
def mpSet {α : Type} (st : MPCacheState α) (k : String) (v : α) : MPCacheState α :=
  ⟨mpSetEntries st.entries k v⟩

/-- `AgentExceptionChecks.run`:
`agent_exceptions = self.cache.get('agent_exceptions') or {}` followed by
`if agent_exceptions: return agent_exceptions`, else the aggregation runs
(`agg` is its result, a pure function of the run's immutable inputs), is
stored with `cache.set`, and is returned.  The `Nat` component counts how
many times the aggregation ran. -/
def runCached {α : Type} (agg : List (String × α))
    (st : MPCacheState (List (String × α))) (count : Nat) :
    List (String × α) × MPCacheState (List (String × α)) × Nat :=
  if ((mpGet st "agent_exceptions").getD []).isEmpty then
    (agg, mpSet st "agent_exceptions" agg, count + 1)
  else
    ((mpGet st "agent_exceptions").getD [], st, count)

/-! ## Scenario decision engine

Modelled from the spec: the scenario runner (`YScenarioChecker` and the YAML
scenario definitions) is not under `src/`; only its unit tests are.  The
spec describes a ScenarioDef as a condition tree of AND/OR/NOT combinators
over atomic boolean facts (with boolean constants, cf. the `AND(true,
false)` property), an ordered list of conclusions of which the first
matching one wins, exactly one issue emitted per firing scenario, and a
predicate whose required fact is unavailable evaluating to false. -/

/-- Modelled from the spec: a ScenarioDef condition tree — a tagged-variant
recursive sum type of atomic predicates, boolean constants and AND/OR/NOT
combinators. -/
inductive Condition : Type where
  | const : Bool → Condition
  | fact : String → Condition
  | cAnd : Condition → Condition → Condition
  | cOr : Condition → Condition → Condition
  | cNot : Condition → Condition
deriving DecidableEq

/-- Modelled from the spec: condition evaluation against the fact set.
Facts are accessors returning a value or unknown/absent; an unavailable
fact evaluates to false.  `&&`/`||` short-circuit. -/
def evalCond (facts : String → Option Bool) : Condition → Bool
  | .const b => b
  | .fact p => (facts p).getD false
  | .cAnd l r => evalCond facts l && evalCond facts r
  | .cOr l r => evalCond facts l || evalCond facts r
  | .cNot c => !evalCond facts c

/-- Modelled from the spec: a user-visible finding passed to the Issue/Bug
sink: type/severity, message, origin identifier. -/
structure Issue where
  itype : String
  msg : String
  origin : String
deriving DecidableEq

/-- Modelled from the spec: one conclusion of a ScenarioDef — a guard
condition selecting it plus the issue it raises. -/
structure Conclusion where
  guard : Condition
  issue : Issue
deriving DecidableEq

/-- Modelled from the spec: one declarative rule.  A ScenarioDef carries at
least one conclusion (`concl1`), possibly more (`conclRest`). -/
structure ScenarioDef where
  sid : String
  cond : Condition
  concl1 : Conclusion
  conclRest : List Conclusion
deriving DecidableEq

/-- Modelled from the spec: evaluating one ScenarioDef.  If the condition is
true the scenario fires and emits exactly one issue — the first conclusion
whose guard matches wins (the spec guarantees a firing scenario emits one
issue, so the leading conclusion is the fallback); if false, no output. -/
def fireScenario (facts : String → Option Bool) (s : ScenarioDef) : List Issue :=
  if evalCond facts s.cond then
    [(((s.concl1 :: s.conclRest).find? (fun c => evalCond facts c.guard)).getD s.concl1).issue]
  else
    []

/-- Modelled from the spec: the ScenarioDef of the test `test_1927868` — a
rule requiring that the installed package neutron-common has version below
2:16.4.1, raising one critical bug. -/
def scenario1927868 : ScenarioDef where
  sid := "1927868"
  cond := .fact "neutron-common version lt 2:16.4.1"
  concl1 :=
    { guard := .const true
      issue :=
        { itype := "critical-bug"
          msg := "Installed package neutron-common with version 2:16.4.0-0ubuntu2 has a known critical bug"
          origin := "openstack.01part" } }
  conclRest := []

/-- Modelled from the spec: the fact set of a node whose package inventory
reports neutron-common 2:16.4.0-0ubuntu2; that version satisfies the bound
`lt 2:16.4.1`, so the version predicate holds. -/
def factsBuggy : String → Option Bool :=
  fun p => if p = "neutron-common version lt 2:16.4.1" then some true else none

/-- Modelled from the spec: the fact set of a node where neutron-common is
not installed — the version predicate's required fact is unavailable. -/
def factsAbsent : String → Option Bool :=
  fun _ => none

/-- Modelled from the spec: the fact set of a node whose installed
neutron-common version satisfies the fixed bound (not below 2:16.4.1). -/
def factsFixed : String → Option Bool :=
  fun p => if p = "neutron-common version lt 2:16.4.1" then some false else none

/-! ## Event stats engine and `NeutronAgentEventChecks.process_results`

`core.analytics.LogEventStats` is not under `src/`; only its caller
`process_results` is.  The stats engine is modelled from the spec:
durations are `end - start` in a sub-second-precision numeric unit
(modelled as `ℚ`), the top-N list is the samples sorted by duration
descending (ties by entity id ascending) truncated to `top_n`, and the
summary statistics are computed over the entire population, rounded to two
decimal places.  The square root used by the standard deviation is an
external numeric routine, taken as a parameter. -/

/-- Modelled from the spec: one duration-bearing occurrence. -/
structure EventSample where
  entityId : String
  startTime : ℚ
  endTime : ℚ
deriving DecidableEq

/-- Modelled from the spec: duration of a sample, end minus start. -/
def duration (s : EventSample) : ℚ :=
  s.endTime - s.startTime

/-- Modelled from the spec: the top-N comparison — duration descending, ties
broken by entity id ascending for determinism. -/
def sampleLE (a b : EventSample) : Bool :=
  decide (duration b < duration a) ||
    (decide (duration a = duration b) && decide (a.entityId ≤ b.entityId))

/-- Modelled from the spec: sort by duration descending and truncate to the
top `n`; with fewer than `n` samples all are returned. -/
def topNSorted (samples : List EventSample) (n : Nat) : List EventSample :=
  (insSort sampleLE samples).take n

/-- Rounding to two decimal places. -/
def round2 (q : ℚ) : ℚ :=
  (round (q * 100) : ℤ) / 100

/-- Smallest element of a list of rationals (0 for the empty list, which the
stats engine never passes). -/
def listMinD : List ℚ → ℚ
  | [] => 0
  | x :: xs => xs.foldl min x

/-- Largest element of a list of rationals (0 for the empty list). -/
def listMaxD : List ℚ → ℚ
  | [] => 0
  | x :: xs => xs.foldl max x

/-- Modelled from the spec: population statistics over a set of samples —
count, min, max, average and standard deviation, rounded to two decimal
places, or absence for an empty population. -/
structure StatsSummary where
  samples : Nat
  minVal : ℚ
  maxVal : ℚ
  avg : ℚ
  stdev : ℚ
deriving DecidableEq

/-- Modelled from the spec: build the summary over the entire sample
population; an empty collection produces no output. -/
def mkSummary (sqrtFn : ℚ → ℚ) (samples : List EventSample) : Option StatsSummary :=
  if samples.isEmpty then none
  else
    let ds := samples.map duration
    let n : ℚ := (samples.length : ℚ)
    let mean := ds.sum / n
    some
      { samples := samples.length
        minVal := round2 (listMinD ds)
        maxVal := round2 (listMaxD ds)
        avg := round2 mean
        stdev := round2 (sqrtFn ((ds.map (fun d => (d - mean) ^ 2)).sum / n)) }

/-- Modelled from the spec: the stats engine contract
`compute(samples, top_n) -> (TopN, StatsSummary)`. -/
def computeEventStats (sqrtFn : ℚ → ℚ) (samples : List EventSample) (top_n : Nat) :
    Option (List EventSample × StatsSummary) :=
  match mkSummary sqrtFn samples with
  | none => none
  | some st => some (topNSorted samples top_n, st)

/-- The per-event output entry of `process_results`:
`{"top": top5, "stats": stats.get_event_stats()}`. -/
structure EventInfo where
  top : List EventSample
  stats : Option StatsSummary
deriving DecidableEq

/-- The inner loop of `NeutronAgentEventChecks.process_results` over the
events of one definitions section, with `samplesOf` giving each event's
samples (the searches and pairing live in the external `LogEventStats`).
As in the source, as soon as an event's top-5 list is empty the loop
`break`s: that event and every later event of the section produce
nothing. -/
def processEvents (sqrtFn : ℚ → ℚ) (samplesOf : String → List EventSample) :
    List String → List (String × EventInfo)
  | [] => []
  | ev :: rest =>
      if (topNSorted (samplesOf ev) 5).isEmpty then []
      else
        (ev, ⟨topNSorted (samplesOf ev) 5, mkSummary sqrtFn (samplesOf ev)⟩) ::
          processEvents sqrtFn samplesOf rest

/-- Insert one event entry of section `sec` into the accumulated
`agent_info`, as the source does per event:
`if agent_name not in agent_info: agent_info[agent_name] = {}` then
`agent_info[agent_name][event] = info` (event names within a section are
distinct, so the dictionary write is an append). -/
def addEventInfo (acc : List (String × List (String × EventInfo))) (sec : String)
    (p : String × EventInfo) : List (String × List (String × EventInfo)) :=
  match acc with
  | [] => [(sec, [p])]
  | (s, es) :: rest =>
      if s = sec then (s, es ++ [p]) :: rest else (s, es) :: addEventInfo rest sec p

/-- `NeutronAgentEventChecks.process_results`: for every definitions section
process its events in order, collecting each produced entry into
`agent_info`. -/
def processResults (sqrtFn : ℚ → ℚ) (samplesOf : String → List EventSample)
    (eventDefinitions : List (String × List String)) :
    List (String × List (String × EventInfo)) :=
  eventDefinitions.foldl
    (fun acc sec =>
      (processEvents sqrtFn samplesOf sec.2).foldl
        (fun a p => addEventInfo a sec.1 p) acc)
    []

/-- Concrete match records used to exercise the tally engine: two
MessagingTimeout hits on 2022-02-04 (one with the name group quoted, as
logged) and one on 2022-02-09. -/
def sampleRecords : List MatchRecord :=
  [⟨"2022-02-04".data, "10:42:33.123".data, "'MessagingTimeout'".data⟩,
   ⟨"2022-02-04".data, "11:00:01.000".data, "MessagingTimeout".data⟩,
   ⟨"2022-02-09".data, "09:05:00.000".data, "MessagingTimeout".data⟩]

/-- Concrete event samples: six one-second events, enough for a top-5 list
to truncate. -/
def sampleEvents : List EventSample :=
  [⟨"2100", 0, 1⟩, ⟨"2101", 0, 1⟩, ⟨"3152", 0, 1⟩,
   ⟨"3302", 0, 1⟩, ⟨"3693", 0, 1⟩, ⟨"4000", 0, 1⟩]

/-- Concrete per-event samples for the definitions sections: every event has
one sample except the event named empty-event. -/
def sampleSamplesOf : String → List EventSample :=
  fun ev => if ev = "empty-event" then [] else [⟨"e1", 0, 1⟩]

/-! ## Association-list lemmas -/

theorem alGet_alBump_self (m : List (PyStr × Nat)) (k : PyStr) :
    alGet (alBump m k) k = some ((alGet m k).getD 0 + 1) := by
  induction m with
  | nil => simp [alGet, alBump]
  | cons p rest ih =>
      obtain ⟨k', v⟩ := p
      by_cases h : k' = k
      · subst h
        simp [alGet, alBump]
      · simp [alGet, alBump, h, ih]

theorem alGet_alBump_ne (m : List (PyStr × Nat)) (k k' : PyStr) (h : k' ≠ k) :
    alGet (alBump m k) k' = alGet m k' := by
  induction m with
  | nil =>
      simp only [alBump, alGet]
      rw [if_neg (fun hc => h hc.symm)]
  | cons p rest ih =>
      obtain ⟨k₀, v⟩ := p
      by_cases h0 : k₀ = k
      · subst h0
        simp only [alBump, if_pos rfl, alGet]
        rw [if_neg (fun hc => h hc.symm), if_neg (fun hc => h hc.symm)]
      · simp only [alBump, if_neg h0, alGet]
        by_cases h1 : k₀ = k'
        · rw [if_pos h1, if_pos h1]
        · rw [if_neg h1, if_neg h1]
          exact ih

theorem alGet_eq_none_iff (m : List (PyStr × Nat)) (k : PyStr) :
    alGet m k = none ↔ k ∉ m.map Prod.fst := by
  induction m with
  | nil => simp [alGet]
  | cons p rest ih =>
      obtain ⟨k', v⟩ := p
      by_cases h : k' = k
      · subst h
        simp [alGet]
      · simp only [alGet, if_neg h, List.map_cons, List.mem_cons, ih]
        constructor
        · rintro hn (hc | hc)
          · exact h hc.symm
          · exact hn hc
        · intro hn
          exact fun hc => hn (Or.inr hc)

theorem alGet_mem {m : List (PyStr × Nat)} {k : PyStr} {v : Nat}
    (h : alGet m k = some v) : (k, v) ∈ m := by
  induction m with
  | nil => simp [alGet] at h
  | cons p rest ih =>
      obtain ⟨k', v'⟩ := p
      by_cases h0 : k' = k
      · subst h0
        rw [alGet, if_pos rfl] at h
        obtain rfl : v' = v := Option.some.inj h
        exact List.mem_cons_self _ _
      · rw [alGet, if_neg h0] at h
        exact List.mem_cons_of_mem _ (ih h)

theorem mem_mapFst_alBump (m : List (PyStr × Nat)) (k k' : PyStr) :
    k' ∈ (alBump m k).map Prod.fst ↔ k' ∈ m.map Prod.fst ∨ k' = k := by
  induction m with
  | nil => simp [alBump, eq_comm]
  | cons p rest ih =>
      obtain ⟨k₀, v⟩ := p
      by_cases h : k₀ = k
      · subst h
        simp only [alBump, if_pos rfl]
        by_cases h1 : k' = k₀ <;> simp [h1]
      · simp only [alBump, if_neg h, List.map_cons, List.mem_cons, ih]
        tauto

theorem mapFst_alBump_of_mem {m : List (PyStr × Nat)} {k : PyStr}
    (h : k ∈ m.map Prod.fst) : (alBump m k).map Prod.fst = m.map Prod.fst := by
  induction m with
  | nil => simp at h
  | cons p rest ih =>
      obtain ⟨k₀, v⟩ := p
      by_cases h0 : k₀ = k
      · subst h0
        simp [alBump]
      · simp only [List.map_cons, List.mem_cons] at h
        rcases h with h | h
        · exact absurd h.symm h0
        · simp [alBump, h0, ih h]

theorem mapFst_alBump_of_not_mem {m : List (PyStr × Nat)} {k : PyStr}
    (h : k ∉ m.map Prod.fst) : (alBump m k).map Prod.fst = m.map Prod.fst ++ [k] := by
  induction m with
  | nil => simp [alBump]
  | cons p rest ih =>
      obtain ⟨k₀, v⟩ := p
      simp only [List.map_cons, List.mem_cons] at h
      push_neg at h
      have h0 : ¬ k₀ = k := fun hc => h.1 hc.symm
      simp [alBump, h0, ih h.2]

theorem nodup_mapFst_alBump {m : List (PyStr × Nat)} {k : PyStr}
    (h : (m.map Prod.fst).Nodup) : ((alBump m k).map Prod.fst).Nodup := by
  by_cases hm : k ∈ m.map Prod.fst
  · rw [mapFst_alBump_of_mem hm]
    exact h
  · rw [mapFst_alBump_of_not_mem hm]
    simp [List.nodup_append, h, hm]

theorem sumVals_alBump (m : List (PyStr × Nat)) (k : PyStr) :
    sumVals (alBump m k) = sumVals m + 1 := by
  induction m with
  | nil => simp [alBump, sumVals]
  | cons p rest ih =>
      obtain ⟨k₀, v⟩ := p
      by_cases h : k₀ = k
      · subst h
        simp [alBump, sumVals]
        omega
      · simp only [alBump, if_neg h, sumVals, List.map_cons, List.sum_cons] at ih ⊢
        omega

theorem alGet_of_mem_nodup {m : List (PyStr × Nat)} {k : PyStr} {v : Nat}
    (hnd : (m.map Prod.fst).Nodup) (h : (k, v) ∈ m) : alGet m k = some v := by
  induction m with
  | nil => simp at h
  | cons p rest ih =>
      obtain ⟨k₀, v₀⟩ := p
      simp only [List.map_cons, List.nodup_cons] at hnd
      rcases List.mem_cons.1 h with h0 | h0
      · obtain ⟨rfl, rfl⟩ := Prod.mk.inj h0
        rw [alGet, if_pos rfl]
      · have hne : ¬ k₀ = k := by
          rintro rfl
          exact hnd.1 (List.mem_map.2 ⟨(k₀, v), h0, rfl⟩)
        rw [alGet, if_neg hne]
        exact ih hnd.2 h0

/-! ## Outer-dictionary lemmas -/

theorem alGet_outerBump_self (m : TallyTable) (n k : PyStr) :
    alGet (outerBump m n k) n = some (alBump ((alGet m n).getD []) k) := by
  induction m with
  | nil => simp [alGet, outerBump, alBump]
  | cons p rest ih =>
      obtain ⟨n', im⟩ := p
      by_cases h : n' = n
      · subst h
        simp [alGet, outerBump]
      · simp [alGet, outerBump, h, ih]

theorem alGet_outerBump_ne (m : TallyTable) (n k n' : PyStr) (h : n' ≠ n) :
    alGet (outerBump m n k) n' = alGet m n' := by
  induction m with
  | nil =>
      simp only [outerBump, alGet]
      rw [if_neg (fun hc => h hc.symm)]
  | cons p rest ih =>
      obtain ⟨n₀, im⟩ := p
      by_cases h0 : n₀ = n
      · subst h0
        simp only [outerBump, if_pos rfl, alGet]
        rw [if_neg (fun hc => h hc.symm), if_neg (fun hc => h hc.symm)]
      · simp only [outerBump, if_neg h0, alGet]
        by_cases h1 : n₀ = n'
        · rw [if_pos h1, if_pos h1]
        · rw [if_neg h1, if_neg h1]
          exact ih

theorem alGetT_eq_none_iff (m : TallyTable) (n : PyStr) :
    alGet m n = none ↔ n ∉ m.map Prod.fst := by
  induction m with
  | nil => simp [alGet]
  | cons p rest ih =>
      obtain ⟨n', im⟩ := p
      by_cases h : n' = n
      · subst h
        simp [alGet]
      · simp only [alGet, if_neg h, List.map_cons, List.mem_cons, ih]
        constructor
        · rintro hn (hc | hc)
          · exact h hc.symm
          · exact hn hc
        · intro hn
          exact fun hc => hn (Or.inr hc)

theorem alGetT_mem {m : TallyTable} {n : PyStr} {im : List (PyStr × Nat)}
    (h : alGet m n = some im) : (n, im) ∈ m := by
  induction m with
  | nil => simp [alGet] at h
  | cons p rest ih =>
      obtain ⟨n', im'⟩ := p
      by_cases h0 : n' = n
      · subst h0
        rw [alGet, if_pos rfl] at h
        obtain rfl : im' = im := Option.some.inj h
        exact List.mem_cons_self _ _
      · rw [alGet, if_neg h0] at h
        exact List.mem_cons_of_mem _ (ih h)

theorem alGetT_of_mem_nodup {m : TallyTable} {n : PyStr} {im : List (PyStr × Nat)}
    (hnd : (m.map Prod.fst).Nodup) (h : (n, im) ∈ m) : alGet m n = some im := by
  induction m with
  | nil => simp at h
  | cons p rest ih =>
      obtain ⟨n₀, im₀⟩ := p
      simp only [List.map_cons, List.nodup_cons] at hnd
      rcases List.mem_cons.1 h with h0 | h0
      · obtain ⟨rfl, rfl⟩ := Prod.mk.inj h0
        rw [alGet, if_pos rfl]
      · have hne : ¬ n₀ = n := by
          rintro rfl
          exact hnd.1 (List.mem_map.2 ⟨(n₀, im), h0, rfl⟩)
        rw [alGet, if_neg hne]
        exact ih hnd.2 h0

theorem mapFst_outerBump_of_mem {m : TallyTable} {n : PyStr} (k : PyStr)
    (h : n ∈ m.map Prod.fst) : (outerBump m n k).map Prod.fst = m.map Prod.fst := by
  induction m with
  | nil => simp at h
  | cons p rest ih =>
      obtain ⟨n₀, im⟩ := p
      by_cases h0 : n₀ = n
      · subst h0
        simp [outerBump]
      · simp only [List.map_cons, List.mem_cons] at h
        rcases h with h | h
        · exact absurd h.symm h0
        · simp [outerBump, h0, ih h]

theorem mapFst_outerBump_of_not_mem {m : TallyTable} {n : PyStr} (k : PyStr)
    (h : n ∉ m.map Prod.fst) :
    (outerBump m n k).map Prod.fst = m.map Prod.fst ++ [n] := by
  induction m with
  | nil => simp [outerBump]
  | cons p rest ih =>
      obtain ⟨n₀, im⟩ := p
      simp only [List.map_cons, List.mem_cons] at h
      push_neg at h
      have h0 : ¬ n₀ = n := fun hc => h.1 hc.symm
      simp [outerBump, h0, ih h.2]

theorem mem_outerBump {m : TallyTable} {n k : PyStr} {p : PyStr × List (PyStr × Nat)}
    (hp : p ∈ outerBump m n k) :
    p ∈ m ∨ (∃ im, (n, im) ∈ m ∧ p = (n, alBump im k)) ∨ p = (n, [(k, 1)]) := by
  induction m with
  | nil =>
      simp only [outerBump, List.mem_singleton] at hp
      exact Or.inr (Or.inr hp)
  | cons q rest ih =>
      obtain ⟨n₀, im⟩ := q
      by_cases h0 : n₀ = n
      · subst h0
        rw [outerBump, if_pos rfl] at hp
        rcases List.mem_cons.1 hp with h | h
        · exact Or.inr (Or.inl ⟨im, List.mem_cons_self _ _, h⟩)
        · exact Or.inl (List.mem_cons_of_mem _ h)
      · rw [outerBump, if_neg h0] at hp
        rcases List.mem_cons.1 hp with h | h
        · exact Or.inl (h ▸ List.mem_cons_self _ _)
        · rcases ih h with h1 | ⟨im', him', h1⟩ | h1
          · exact Or.inl (List.mem_cons_of_mem _ h1)
          · exact Or.inr (Or.inl ⟨im', List.mem_cons_of_mem _ him', h1⟩)
          · exact Or.inr (Or.inr h1)

theorem tallyWF_outerBump {m : TallyTable} (n k : PyStr) (h : TallyWF m) :
    TallyWF (outerBump m n k) := by
  obtain ⟨hout, hin⟩ := h
  constructor
  · by_cases hm : n ∈ m.map Prod.fst
    · rw [mapFst_outerBump_of_mem k hm]
      exact hout
    · rw [mapFst_outerBump_of_not_mem k hm]
      simp [List.nodup_append, hout, hm]
  · intro p hp
    rcases mem_outerBump hp with h1 | ⟨im, him, rfl⟩ | rfl
    · exact hin p h1
    · exact nodup_mapFst_alBump (hin (n, im) him)
    · simp

/-! ## Tally-loop invariants -/

theorem tallyLoop_wf (g : PyStr) (rs : List MatchRecord) :
    ∀ acc t, tallyLoop g acc rs = some t → TallyWF acc → TallyWF t := by
  induction rs with
  | nil =>
      intro acc t h hwf
      obtain rfl : acc = t := Option.some.inj h
      exact hwf
  | cons r rest ih =>
      intro acc t h hwf
      rw [tallyLoop, tallyAdd] at h
      cases hb : bucketKey g r with
      | none => rw [hb] at h; cases h
      | some key =>
          rw [hb] at h
          exact ih _ _ h (tallyWF_outerBump _ _ hwf)

theorem tallyLoop_keys_isSome (g : PyStr) (rs : List MatchRecord) :
    ∀ acc t, tallyLoop g acc rs = some t → ∀ r ∈ rs, (bucketKey g r).isSome := by
  induction rs with
  | nil => intro acc t _ r hr; simp at hr
  | cons r0 rest ih =>
      intro acc t h r hr
      rw [tallyLoop, tallyAdd] at h
      cases hb : bucketKey g r0 with
      | none => rw [hb] at h; cases h
      | some key =>
          rw [hb] at h
          rcases List.mem_cons.1 hr with rfl | hr
          · simp [hb]
          · exact ih _ _ h r hr

theorem tallyLoop_sum (g : PyStr) (rs : List MatchRecord) :
    ∀ acc t, tallyLoop g acc rs = some t → ∀ n,
      sumVals ((alGet t n).getD []) =
        sumVals ((alGet acc n).getD []) +
          rs.countP (fun r => decide (excName r = n)) := by
  induction rs with
  | nil =>
      intro acc t h n
      obtain rfl : acc = t := Option.some.inj h
      simp [List.countP_nil]
  | cons r rest ih =>
      intro acc t h n
      rw [tallyLoop, tallyAdd] at h
      cases hb : bucketKey g r with
      | none => rw [hb] at h; cases h
      | some key =>
          rw [hb] at h
          have hstep := ih _ _ h n
          rw [hstep]
          rw [List.countP_cons]
          by_cases hn : excName r = n
          · subst hn
            rw [alGet_outerBump_self]
            simp only [Option.getD_some]
            rw [sumVals_alBump]
            simp
            omega
          · rw [alGet_outerBump_ne _ _ _ _ (fun hc => hn hc.symm)]
            simp [hn]

theorem tallyLoop_names (g : PyStr) (rs : List MatchRecord) :
    ∀ acc t, tallyLoop g acc rs = some t →
      t.map Prod.fst = namesFold (acc.map Prod.fst) rs := by
  induction rs with
  | nil =>
      intro acc t h
      obtain rfl : acc = t := Option.some.inj h
      simp [namesFold]
  | cons r rest ih =>
      intro acc t h
      rw [tallyLoop, tallyAdd] at h
      cases hb : bucketKey g r with
      | none => rw [hb] at h; cases h
      | some key =>
          rw [hb] at h
          rw [ih _ _ h]
          simp only [namesFold, List.foldl_cons]
          by_cases hm : excName r ∈ acc.map Prod.fst
          · rw [mapFst_outerBump_of_mem key hm, if_pos hm]
          · rw [mapFst_outerBump_of_not_mem key hm, if_neg hm]

theorem tallyLoop_mem_keys (g : PyStr) (rs : List MatchRecord) :
    ∀ acc t, tallyLoop g acc rs = some t → ∀ n k,
      (k ∈ keysOf t n ↔
        k ∈ keysOf acc n ∨ ∃ r ∈ rs, excName r = n ∧ bucketKey g r = some k) := by
  induction rs with
  | nil =>
      intro acc t h n k
      obtain rfl : acc = t := Option.some.inj h
      simp
  | cons r rest ih =>
      intro acc t h n k
      rw [tallyLoop, tallyAdd] at h
      cases hb : bucketKey g r with
      | none => rw [hb] at h; cases h
      | some key =>
          rw [hb] at h
          rw [ih _ _ h n k]
          have hstep : k ∈ keysOf (outerBump acc (excName r) key) n ↔
              k ∈ keysOf acc n ∨ (excName r = n ∧ k = key) := by
            by_cases hn : excName r = n
            · subst hn
              unfold keysOf
              rw [alGet_outerBump_self]
              simp only [Option.getD_some]
              rw [mem_mapFst_alBump]
              simp
            · unfold keysOf
              rw [alGet_outerBump_ne _ _ _ _ (fun hc => hn hc.symm)]
              simp [hn]
          rw [hstep]
          constructor
          · rintro ((h1 | h1) | h1)
            · exact Or.inl h1
            · exact Or.inr ⟨r, List.mem_cons_self _ _, h1.1,
                by rw [hb, h1.2]⟩
            · obtain ⟨r', hr', h2, h3⟩ := h1
              exact Or.inr ⟨r', List.mem_cons_of_mem _ hr', h2, h3⟩
          · rintro (h1 | ⟨r', hr', h2, h3⟩)
            · exact Or.inl (Or.inl h1)
            · rcases List.mem_cons.1 hr' with rfl | hr'
              · refine Or.inl (Or.inr ⟨h2, ?_⟩)
                rw [hb] at h3
                exact (Option.some.inj h3).symm
              · exact Or.inr ⟨r', hr', h2, h3⟩

theorem tallyResults_eq {g : PyStr} {rs : List MatchRecord} {t : TallyTable}
    (h : tallyResults g rs = some (some t)) :
    ∃ excs, tallyLoop g [] rs = some excs ∧ excs ≠ [] ∧
      t = excs.map (fun p => (p.1, sortBuckets p.2)) := by
  cases hl : tallyLoop g [] rs with
  | none => simp [tallyResults, hl] at h
  | some excs =>
      simp only [tallyResults, hl] at h
      by_cases he : excs = []
      · rw [if_pos he] at h
        cases Option.some.inj h
      · rw [if_neg he] at h
        exact ⟨excs, rfl, he, (Option.some.inj (Option.some.inj h)).symm⟩

/-! ## Insertion-sort lemmas -/

theorem perm_insertLe {α : Type} (le : α → α → Bool) (x : α) (l : List α) :
    (insertLe le x l).Perm (x :: l) := by
  induction l with
  | nil => exact List.Perm.refl _
  | cons y ys ih =>
      by_cases h : le y x = true
      · simp only [insertLe, if_pos h]
        exact (ih.cons y).trans (List.Perm.swap x y ys)
      · simp only [insertLe, if_neg h]
        exact List.Perm.refl _

theorem perm_insSort {α : Type} (le : α → α → Bool) (l : List α) :
    (insSort le l).Perm l := by
  induction l with
  | nil => exact List.Perm.refl _
  | cons x xs ih =>
      exact (perm_insertLe le x (insSort le xs)).trans (ih.cons x)

theorem mem_insertLe {α : Type} (le : α → α → Bool) (x z : α) (l : List α) :
    z ∈ insertLe le x l ↔ z = x ∨ z ∈ l := by
  have h := (perm_insertLe le x l).mem_iff (a := z)
  simpa using h

theorem pairwise_insertLe {α : Type} (le : α → α → Bool)
    (htrans : ∀ a b c, le a b = true → le b c = true → le a c = true)
    (htot : ∀ a b, le a b = true ∨ le b a = true)
    (x : α) (l : List α) (hl : l.Pairwise (fun a b => le a b = true)) :
    (insertLe le x l).Pairwise (fun a b => le a b = true) := by
  induction l with
  | nil => simp [insertLe]
  | cons y ys ih =>
      rw [List.pairwise_cons] at hl
      obtain ⟨hy, hys⟩ := hl
      by_cases h : le y x = true
      · simp only [insertLe, if_pos h]
        rw [List.pairwise_cons]
        refine ⟨?_, ih hys⟩
        intro z hz
        rcases (mem_insertLe le x z ys).1 hz with rfl | hz
        · exact h
        · exact hy z hz
      · simp only [insertLe, if_neg h]
        have hxy : le x y = true := (htot x y).resolve_right (fun hc => h hc)
        rw [List.pairwise_cons]
        refine ⟨?_, List.pairwise_cons.2 ⟨hy, hys⟩⟩
        intro z hz
        rcases List.mem_cons.1 hz with rfl | hz
        · exact hxy
        · exact htrans x y z hxy (hy z hz)

theorem pairwise_insSort {α : Type} (le : α → α → Bool)
    (htrans : ∀ a b c, le a b = true → le b c = true → le a c = true)
    (htot : ∀ a b, le a b = true ∨ le b a = true) (l : List α) :
    (insSort le l).Pairwise (fun a b => le a b = true) := by
  induction l with
  | nil => simp [insSort]
  | cons x xs ih => exact pairwise_insertLe le htrans htot x _ ih

theorem perm_sortBuckets (m : List (PyStr × Nat)) : (sortBuckets m).Perm m :=
  perm_insSort _ m

theorem sumVals_sortBuckets (m : List (PyStr × Nat)) :
    sumVals (sortBuckets m) = sumVals m :=
  ((perm_sortBuckets m).map Prod.snd).sum_eq

theorem length_sortBuckets (m : List (PyStr × Nat)) :
    (sortBuckets m).length = m.length :=
  (perm_sortBuckets m).length_eq

theorem mapFst_sortBuckets_perm (m : List (PyStr × Nat)) :
    ((sortBuckets m).map Prod.fst).Perm (m.map Prod.fst) :=
  (perm_sortBuckets m).map Prod.fst

theorem pairwise_le_sortBuckets (m : List (PyStr × Nat)) :
    ((sortBuckets m).map Prod.fst).Pairwise (· ≤ ·) := by
  have h := pairwise_insSort (fun a b : PyStr × Nat => decide (a.1 ≤ b.1))
    (fun a b c hab hbc =>
      decide_eq_true (le_trans (of_decide_eq_true hab) (of_decide_eq_true hbc)))
    (fun a b => by
      rcases le_total a.1 b.1 with h | h
      · exact Or.inl (decide_eq_true h)
      · exact Or.inr (decide_eq_true h)) m
  rw [List.pairwise_map]
  exact h.imp (fun hab => of_decide_eq_true hab)

/-! ## String-manipulation lemmas -/

theorem takeWhile_append_of_all {α : Type} (p : α → Bool) {xs : List α} (ys : List α)
    (h : ∀ x ∈ xs, p x = true) : (xs ++ ys).takeWhile p = xs ++ ys.takeWhile p := by
  induction xs with
  | nil => simp
  | cons a xs ih =>
      rw [List.cons_append,
        List.takeWhile_cons_of_pos (h a (List.mem_cons_self _ _)), List.cons_append,
        ih (fun x hx => h x (List.mem_cons_of_mem _ hx))]

theorem head?_dropWhile_not {α : Type} (p : α → Bool) (l : List α) {a : α}
    (h : (l.dropWhile p).head? = some a) : p a = false := by
  induction l with
  | nil => simp [List.dropWhile] at h
  | cons b l ih =>
      by_cases hb : p b = true
      · rw [List.dropWhile_cons_of_pos hb] at h
        exact ih h
      · rw [List.dropWhile_cons_of_neg hb] at h
        obtain rfl : b = a := Option.some.inj h
        exact Bool.not_eq_true _ ▸ hb

theorem getLast?_dropWhile {α : Type} (p : α → Bool) (l : List α)
    (h : l.dropWhile p ≠ []) : (l.dropWhile p).getLast? = l.getLast? := by
  obtain ⟨pre, hpre⟩ := List.dropWhile_suffix (l := l) p
  conv_rhs => rw [← hpre]
  rw [List.getLast?_append]
  cases hg : (l.dropWhile p).getLast? with
  | none => exact absurd (List.getLast?_eq_none_iff.1 hg) h
  | some a => rfl

theorem pyStrip_head_not {c : Char} {s : PyStr} {a : Char}
    (h : (pyStrip c s).head? = some a) : a ≠ c := by
  unfold pyStrip at h
  rw [List.head?_reverse] at h
  set u := (s.dropWhile (· = c)).reverse.dropWhile (· = c) with hu
  have hne : u ≠ [] := by
    intro hc
    rw [hc] at h
    simp at h
  rw [hu, getLast?_dropWhile _ _ (hu ▸ hne), List.getLast?_reverse] at h
  have := head?_dropWhile_not (· = c) s h
  simpa using this

theorem pyStrip_getLast_not {c : Char} {s : PyStr} {a : Char}
    (h : (pyStrip c s).getLast? = some a) : a ≠ c := by
  unfold pyStrip at h
  rw [List.getLast?_reverse] at h
  have := head?_dropWhile_not (· = c) _ h
  simpa using this

theorem dateOfKey_append (d tl : List Char) (h : ∀ x ∈ tl, x ≠ '_') :
    dateOfKey (d ++ '_' :: tl) = d := by
  show (List.drop
      (((d ++ '_' :: tl).reverse.takeWhile (fun c => !(c = '_'))).length + 1)
      (d ++ '_' :: tl).reverse).reverse = d
  have hrev : (d ++ '_' :: tl).reverse = tl.reverse ++ '_' :: d.reverse := by
    rw [List.reverse_append, List.reverse_cons, List.append_assoc]
    rfl
  rw [hrev]
  have htw : (tl.reverse ++ '_' :: d.reverse).takeWhile (fun c => !(c = '_')) =
      tl.reverse := by
    rw [takeWhile_append_of_all _ _ (fun x hx => by
      simp [h x (List.mem_reverse.1 hx)])]
    rw [List.takeWhile_cons_of_neg (by simp)]
    simp
  rw [htw, List.length_reverse]
  have hdrop : (tl.reverse ++ '_' :: d.reverse).drop (tl.length + 1) = d.reverse := by
    have : tl.length + 1 = tl.reverse.length + 1 := by rw [List.length_reverse]
    rw [this, List.drop_append 1]
    rfl
  rw [hdrop, List.reverse_reverse]

/-! ## Regular-expression lemmas -/

theorem matchAt_spec (hd md tl : List Char) (c : Char)
    (h2 : hd ≠ []) (h3 : ∀ x ∈ hd, x.isDigit) (h4 : md ≠ [])
    (h5 : ∀ x ∈ md, x.isDigit) (h6 : ¬ c.isDigit) (h7 : c ≠ '\n') :
    matchAt (hd ++ ':' :: (md ++ c :: tl)) = some (hd ++ ':' :: md) := by
  have hd1 : (hd ++ ':' :: (md ++ c :: tl)).takeWhile Char.isDigit = hd := by
    rw [takeWhile_append_of_all _ _ (fun x hx => h3 x hx),
      List.takeWhile_cons_of_neg (by simp)]
    simp
  have hd2 : (md ++ c :: tl).takeWhile Char.isDigit = md := by
    rw [takeWhile_append_of_all _ _ (fun x hx => h5 x hx),
      List.takeWhile_cons_of_neg (by simp [h6])]
    simp
  obtain ⟨k0, hk0⟩ : ∃ k0, md.length = k0 + 1 :=
    ⟨md.length - 1, by
      have : 0 < md.length := List.length_pos.2 h4
      omega⟩
  have hfind : findK (md ++ c :: tl) md.length = some md.length := by
    rw [hk0, findK]
    have hdropk : (md ++ c :: tl).drop (k0 + 1) = c :: tl := by
      rw [← hk0]
      exact List.drop_left _ _
    rw [hdropk]
    simp [h7]
  have hdrop : (hd ++ ':' :: (md ++ c :: tl)).drop hd.length = ':' :: (md ++ c :: tl) :=
    List.drop_left _ _
  rw [matchAt, hd1, if_neg (by simp [h2]), hdrop, matchColon, if_pos rfl, hd2,
    hfind, matchEmit, List.take_length]

theorem reSearchGroup_spec (hd md tl : List Char) (c : Char)
    (h2 : hd ≠ []) (h3 : ∀ x ∈ hd, x.isDigit) (h4 : md ≠ [])
    (h5 : ∀ x ∈ md, x.isDigit) (h6 : ¬ c.isDigit) (h7 : c ≠ '\n') :
    reSearchGroup (hd ++ ':' :: (md ++ c :: tl)) = some (hd ++ ':' :: md) := by
  obtain ⟨h0, hd', rfl⟩ : ∃ h0 hd', hd = h0 :: hd' := by
    cases hd with
    | nil => exact absurd rfl h2
    | cons a l => exact ⟨a, l, rfl⟩
  have hm := matchAt_spec (h0 :: hd') md tl c h2 h3 h4 h5 h6 h7
  rw [List.cons_append] at hm ⊢
  rw [reSearchGroup, hm]

theorem matchEmit_charset {d1 d2 gp : List Char} {o : Option Nat}
    (h : matchEmit d1 d2 o = some gp)
    (h1 : ∀ x ∈ d1, x.isDigit) (h2 : ∀ x ∈ d2, x.isDigit) :
    ∀ x ∈ gp, x.isDigit ∨ x = ':' := by
  cases o with
  | none => cases h
  | some k =>
      rw [matchEmit] at h
      obtain rfl := Option.some.inj h
      intro x hx
      rcases List.mem_append.1 hx with hx | hx
      · exact Or.inl (h1 x hx)
      · rcases List.mem_cons.1 hx with rfl | hx
        · exact Or.inr rfl
        · exact Or.inl (h2 x (List.mem_of_mem_take hx))

theorem matchAt_charset {l gp : List Char} (h : matchAt l = some gp) :
    ∀ x ∈ gp, x.isDigit ∨ x = ':' := by
  rw [matchAt] at h
  split at h
  · cases h
  · cases hdrop : l.drop (l.takeWhile Char.isDigit).length with
    | nil => rw [hdrop, matchColon] at h; cases h
    | cons c0 l2 =>
        rw [hdrop, matchColon] at h
        by_cases hc : c0 = ':'
        · rw [if_pos hc] at h
          exact matchEmit_charset h (fun x hx => List.mem_takeWhile_imp hx)
            (fun x hx => List.mem_takeWhile_imp hx)
        · rw [if_neg hc] at h
          cases h

theorem reSearchGroup_charset {l gp : List Char} (h : reSearchGroup l = some gp) :
    ∀ x ∈ gp, x.isDigit ∨ x = ':' := by
  induction l with
  | nil => simp [reSearchGroup] at h
  | cons c rest ih =>
      rw [reSearchGroup] at h
      cases hm : matchAt (c :: rest) with
      | some g0 =>
          rw [hm] at h
          obtain rfl := Option.some.inj h
          exact matchAt_charset hm
      | none =>
          rw [hm] at h
          exact ih h

theorem reSearchGroup_no_underscore {l gp : List Char} (h : reSearchGroup l = some gp) :
    ∀ x ∈ gp, x ≠ '_' := by
  intro x hx
  rcases reSearchGroup_charset h x hx with hd | hd
  · intro hc
    rw [hc] at hd
    simp [Char.isDigit] at hd
  · intro hc
    rw [hc] at hd
    cases hd

/-! ## Bucket-counting lemmas for granularity comparison -/

theorem keysOf_nodup {t : TallyTable} (hwf : TallyWF t) (n : PyStr) :
    (keysOf t n).Nodup := by
  unfold keysOf
  cases hg : alGet t n with
  | none => simp
  | some im =>
      simp only [Option.getD_some]
      exact hwf.2 (n, im) (alGetT_mem hg)

theorem mem_keyList {g n : PyStr} {rs : List MatchRecord} {k : PyStr} :
    k ∈ keyList g n rs ↔ ∃ r ∈ rs, excName r = n ∧ bucketKey g r = some k := by
  unfold keyList
  rw [List.mem_filterMap]
  constructor
  · rintro ⟨r, hr, hk⟩
    by_cases hn : excName r = n
    · rw [if_pos hn] at hk
      exact ⟨r, hr, hn, hk⟩
    · rw [if_neg hn] at hk
      cases hk
  · rintro ⟨r, hr, hn, hk⟩
    exact ⟨r, hr, by rw [if_pos hn]; exact hk⟩

theorem keysOf_toFinset {g : PyStr} {rs : List MatchRecord} {t : TallyTable}
    (h : tallyLoop g [] rs = some t) (n : PyStr) :
    (keysOf t n).toFinset = (keyList g n rs).toFinset := by
  ext k
  rw [List.mem_toFinset, List.mem_toFinset, tallyLoop_mem_keys g rs [] t h n k,
    mem_keyList]
  simp [keysOf, alGet]

theorem lenBuckets_eq_card {g : PyStr} {rs : List MatchRecord} {t : TallyTable}
    (h : tallyLoop g [] rs = some t) (n : PyStr) :
    lenBuckets t n = (keyList g n rs).toFinset.card := by
  have hwf : TallyWF t := tallyLoop_wf g rs [] t h ⟨List.nodup_nil, by simp⟩
  have hnd : (keysOf t n).Nodup := keysOf_nodup hwf n
  have hlen : lenBuckets t n = (keysOf t n).length := by
    unfold lenBuckets keysOf
    rw [List.length_map]
  rw [hlen, ← List.toFinset_card_of_nodup hnd, keysOf_toFinset h n]

theorem image_dateOfKey_keyList {rs : List MatchRecord} (n : PyStr)
    (hsome : ∀ r ∈ rs, (bucketKey "time".data r).isSome) :
    ((keyList "time".data n rs).toFinset.image dateOfKey) =
      (keyList "date".data n rs).toFinset := by
  have hdk : ∀ r : MatchRecord, ∀ k, bucketKey "time".data r = some k →
      dateOfKey k = r.g1 := by
    intro r k hk
    rw [bucketKey, if_pos rfl] at hk
    cases hg : reSearchGroup r.g2 with
    | none => rw [hg] at hk; cases hk
    | some gp =>
        rw [hg] at hk
        obtain rfl := Option.some.inj (by simpa using hk)
        exact dateOfKey_append r.g1 gp (reSearchGroup_no_underscore hg)
  have hdate : ∀ r : MatchRecord, bucketKey "date".data r = some r.g1 := by
    intro r
    rw [bucketKey, if_neg (by decide)]
  ext d
  rw [Finset.mem_image]
  constructor
  · rintro ⟨k, hk, rfl⟩
    rw [List.mem_toFinset, mem_keyList] at hk
    obtain ⟨r, hr, hn, hk⟩ := hk
    rw [List.mem_toFinset, mem_keyList]
    exact ⟨r, hr, hn, by rw [hdate r, hdk r _ hk]⟩
  · intro hd
    rw [List.mem_toFinset, mem_keyList] at hd
    obtain ⟨r, hr, hn, hk⟩ := hd
    obtain rfl : r.g1 = d := Option.some.inj ((hdate r).symm.trans hk)
    obtain ⟨k, hk'⟩ := Option.isSome_iff_exists.1 (hsome r hr)
    refine ⟨k, ?_, hdk r k hk'⟩
    rw [List.mem_toFinset, mem_keyList]
    exact ⟨r, hr, hn, hk'⟩

theorem lenBuckets_mono {rs : List MatchRecord} {tt td : TallyTable}
    (ht : tallyLoop "time".data [] rs = some tt)
    (hd : tallyLoop "date".data [] rs = some td) (n : PyStr) :
    lenBuckets td n ≤ lenBuckets tt n := by
  rw [lenBuckets_eq_card ht n, lenBuckets_eq_card hd n]
  rw [← image_dateOfKey_keyList n (tallyLoop_keys_isSome _ rs [] tt ht)]
  exact Finset.card_image_le

theorem totalBuckets_eq_sum {t : TallyTable} (hnd : (t.map Prod.fst).Nodup) :
    totalBuckets t = ((t.map Prod.fst).map (fun n => lenBuckets t n)).sum := by
  induction t with
  | nil => simp [totalBuckets]
  | cons p rest ih =>
      obtain ⟨n, im⟩ := p
      simp only [List.map_cons, List.nodup_cons] at hnd
      have h1 : lenBuckets ((n, im) :: rest) n = im.length := by
        unfold lenBuckets
        rw [alGet, if_pos rfl]
        rfl
      have h2 : ∀ n' ∈ rest.map Prod.fst,
          lenBuckets ((n, im) :: rest) n' = lenBuckets rest n' := by
        intro n' hn'
        unfold lenBuckets
        rw [alGet, if_neg (fun hc => hnd.1 (by rw [hc]; exact hn'))]
      simp only [totalBuckets, List.map_cons, List.sum_cons] at ih ⊢
      rw [ih hnd.2, h1]
      congr 1
      exact congrArg List.sum (List.map_congr_left h2).symm

/-! ## Remaining support lemmas -/

theorem mem_namesFold (rs : List MatchRecord) :
    ∀ ns n, n ∈ namesFold ns rs ↔ n ∈ ns ∨ ∃ r ∈ rs, excName r = n := by
  induction rs with
  | nil =>
      intro ns n
      simp [namesFold]
  | cons r rest ih =>
      intro ns n
      have hstep : namesFold ns (r :: rest) =
          namesFold (if excName r ∈ ns then ns else ns ++ [excName r]) rest := by
        simp [namesFold]
      rw [hstep, ih]
      by_cases hm : excName r ∈ ns
      · rw [if_pos hm]
        constructor
        · rintro (h | h)
          · exact Or.inl h
          · obtain ⟨r', hr', he⟩ := h
            exact Or.inr ⟨r', List.mem_cons_of_mem _ hr', he⟩
        · rintro (h | ⟨r', hr', he⟩)
          · exact Or.inl h
          · rcases List.mem_cons.1 hr' with rfl | hr'
            · exact Or.inl (he ▸ hm)
            · exact Or.inr ⟨r', hr', he⟩
      · rw [if_neg hm]
        constructor
        · rintro (h | h)
          · rcases List.mem_append.1 h with h | h
            · exact Or.inl h
            · exact Or.inr ⟨r, List.mem_cons_self _ _, (List.mem_singleton.1 h).symm⟩
          · obtain ⟨r', hr', he⟩ := h
            exact Or.inr ⟨r', List.mem_cons_of_mem _ hr', he⟩
        · rintro (h | ⟨r', hr', he⟩)
          · exact Or.inl (List.mem_append.2 (Or.inl h))
          · rcases List.mem_cons.1 hr' with rfl | hr'
            · exact Or.inl (List.mem_append.2 (Or.inr (List.mem_singleton.2 he.symm)))
            · exact Or.inr ⟨r', hr', he⟩

theorem pairwise_lt_of_le_nodup {l : List PyStr}
    (h1 : l.Pairwise (· ≤ ·)) (h2 : l.Nodup) : l.Pairwise (· < ·) :=
  (h1.and h2).imp (fun h => lt_of_le_of_ne h.1 h.2)

theorem mapFst_final (excs : TallyTable) :
    (excs.map (fun p => (p.1, sortBuckets p.2))).map Prod.fst = excs.map Prod.fst := by
  rw [List.map_map]
  rfl

theorem totalBuckets_final (excs : TallyTable) :
    totalBuckets (excs.map (fun p => (p.1, sortBuckets p.2))) = totalBuckets excs := by
  unfold totalBuckets
  rw [List.map_map]
  exact congrArg List.sum (List.map_congr_left (fun p _ => length_sortBuckets p.2))

theorem processEvents_break (f : ℚ → ℚ) (so : String → List EventSample)
    (evs1 : List String) (e : String) (evs2 : List String)
    (h1 : ∀ x ∈ evs1, topNSorted (so x) 5 ≠ [])
    (h2 : topNSorted (so e) 5 = []) :
    processEvents f so (evs1 ++ e :: evs2) = processEvents f so evs1 := by
  induction evs1 with
  | nil =>
      rw [List.nil_append]
      simp only [processEvents, h2]
      rfl
  | cons x xs ih =>
      rw [List.cons_append]
      simp only [processEvents]
      have hx : (topNSorted (so x) 5).isEmpty = false := by
        cases hc : topNSorted (so x) 5 with
        | nil => exact absurd hc (h1 x (List.mem_cons_self _ _))
        | cons a l => rfl
      rw [hx]
      simp only [Bool.false_eq_true, if_false]
      rw [ih (fun y hy => h1 y (List.mem_cons_of_mem _ hy))]

/-! ## Claim theorems -/

/-- C1: for every collection of match records accepted by the tally
operation and every event name appearing in the returned table, the sum of
the per-bucket counts under that event name equals the number of input
records whose quote-stripped name capture group equals that event name. -/
theorem tally_sum_per_event (g : PyStr) (rs : List MatchRecord) (t : TallyTable)
    (n : PyStr) (m : List (PyStr × Nat))
    (h : tallyResults g rs = some (some t)) (hm : (n, m) ∈ t) :
    sumVals m = rs.countP (fun r => decide (excName r = n)) := by
  obtain ⟨excs, hl, hne, rfl⟩ := tallyResults_eq h
  obtain ⟨p, hp, hpe⟩ := List.mem_map.1 hm
  obtain ⟨hn1, hn2⟩ := Prod.mk.inj hpe
  subst hn1
  subst hn2
  have hwf := tallyLoop_wf g rs [] excs hl ⟨List.nodup_nil, by simp⟩
  have hget : alGet excs p.1 = some p.2 := alGetT_of_mem_nodup hwf.1 hp
  have hsum := tallyLoop_sum g rs [] excs hl p.1
  rw [hget] at hsum
  simp only [Option.getD_some] at hsum
  rw [sumVals_sortBuckets, hsum]
  simp [alGet, sumVals]

/-- Witness for C1 on the concrete record set. -/
theorem tally_sum_per_event_witness :
    sumVals [("2022-02-04".data, 2), ("2022-02-09".data, 1)] =
      sampleRecords.countP (fun r => decide (excName r = "MessagingTimeout".data)) :=
  tally_sum_per_event "date".data sampleRecords
    [("MessagingTimeout".data, [("2022-02-04".data, 2), ("2022-02-09".data, 1)])]
    "MessagingTimeout".data [("2022-02-04".data, 2), ("2022-02-09".data, 1)]
    rfl (List.mem_singleton.2 rfl)

/-- C4: for every non-empty collection of match records, the bucket keys
inside each event entry of the returned table are strictly sorted in the
lexicographic character order, hence pairwise distinct, whatever the order
the records arrived in. -/
theorem tally_buckets_strictly_sorted (g : PyStr) (rs : List MatchRecord)
    (t : TallyTable) (_hrs : rs ≠ []) (h : tallyResults g rs = some (some t)) :
    ∀ p ∈ t, (p.2.map Prod.fst).Pairwise (· < ·) := by
  obtain ⟨excs, hl, hne, rfl⟩ := tallyResults_eq h
  intro p hp
  obtain ⟨q, hq, rfl⟩ := List.mem_map.1 hp
  have hwf := tallyLoop_wf g rs [] excs hl ⟨List.nodup_nil, by simp⟩
  have hnd : (q.2.map Prod.fst).Nodup := hwf.2 q hq
  have hnd' : ((sortBuckets q.2).map Prod.fst).Nodup :=
    hnd.perm (mapFst_sortBuckets_perm q.2).symm
  exact pairwise_lt_of_le_nodup (pairwise_le_sortBuckets q.2) hnd'

/-- Witness for C4 on the concrete record set, time granularity. -/
theorem tally_buckets_strictly_sorted_witness :
    ((([("2022-02-04_10:42".data, 1), ("2022-02-04_11:00".data, 1),
        ("2022-02-09_09:05".data, 1)] : List (PyStr × Nat))).map
      Prod.fst).Pairwise (· < ·) :=
  tally_buckets_strictly_sorted "time".data sampleRecords
    [("MessagingTimeout".data,
      [("2022-02-04_10:42".data, 1), ("2022-02-04_11:00".data, 1),
       ("2022-02-09_09:05".data, 1)])]
    (by simp [sampleRecords]) rfl
    ("MessagingTimeout".data,
      [("2022-02-04_10:42".data, 1), ("2022-02-04_11:00".data, 1),
       ("2022-02-09_09:05".data, 1)])
    (List.mem_singleton.2 rfl)

/-- C6: for a fixed record collection the total number of distinct buckets
produced with granularity time is at least the number produced with
granularity date. -/
theorem tally_time_not_fewer_buckets (rs : List MatchRecord) (tt td : TallyTable)
    (h1 : tallyResults "time".data rs = some (some tt))
    (h2 : tallyResults "date".data rs = some (some td)) :
    totalBuckets td ≤ totalBuckets tt := by
  obtain ⟨exT, hlT, hneT, rfl⟩ := tallyResults_eq h1
  obtain ⟨exD, hlD, hneD, rfl⟩ := tallyResults_eq h2
  rw [totalBuckets_final, totalBuckets_final]
  have hwT := tallyLoop_wf _ rs [] exT hlT ⟨List.nodup_nil, by simp⟩
  have hwD := tallyLoop_wf _ rs [] exD hlD ⟨List.nodup_nil, by simp⟩
  rw [totalBuckets_eq_sum hwT.1, totalBuckets_eq_sum hwD.1]
  have hn : exD.map Prod.fst = exT.map Prod.fst := by
    rw [tallyLoop_names _ rs [] exD hlD, tallyLoop_names _ rs [] exT hlT]
  rw [hn]
  exact List.sum_le_sum (fun n _ => lenBuckets_mono hlT hlD n)

/-- Witness for C6: two date buckets against three time buckets. -/
theorem tally_time_not_fewer_buckets_witness :
    totalBuckets [("MessagingTimeout".data,
        [("2022-02-04".data, 2), ("2022-02-09".data, 1)])] ≤
      totalBuckets [("MessagingTimeout".data,
        [("2022-02-04_10:42".data, 1), ("2022-02-04_11:00".data, 1),
         ("2022-02-09_09:05".data, 1)])] :=
  tally_time_not_fewer_buckets sampleRecords
    [("MessagingTimeout".data,
      [("2022-02-04_10:42".data, 1), ("2022-02-04_11:00".data, 1),
       ("2022-02-09_09:05".data, 1)])]
    [("MessagingTimeout".data, [("2022-02-04".data, 2), ("2022-02-09".data, 1)])]
    rfl rfl

/-- C7: the bucket key of a record is its date group under date
granularity, and the date group, an underscore and the leading HH:MM of
the time group under time granularity, with everything after the HH:MM
pair ignored. -/
theorem tally_bucket_key_shape (r : MatchRecord) (hd md tl : List Char) (c : Char)
    (h1 : r.g2 = hd ++ ':' :: (md ++ c :: tl))
    (h2 : hd ≠ []) (h3 : ∀ x ∈ hd, x.isDigit) (h4 : md ≠ [])
    (h5 : ∀ x ∈ md, x.isDigit) (h6 : ¬ c.isDigit) (h7 : c ≠ '\n') :
    bucketKey "time".data r = some (r.g1 ++ '_' :: (hd ++ ':' :: md)) ∧
    bucketKey "date".data r = some r.g1 := by
  constructor
  · rw [bucketKey, if_pos rfl, h1,
      reSearchGroup_spec hd md tl c h2 h3 h4 h5 h6 h7]
    rfl
  · rw [bucketKey, if_neg (by decide)]

/-- Witness for C7 on a record logged at 10:42:33.123. -/
theorem tally_bucket_key_shape_witness :
    bucketKey "time".data
        ⟨"2022-02-04".data, "10:42:33.123".data, "'MessagingTimeout'".data⟩ =
      some ("2022-02-04".data ++ '_' :: (['1', '0'] ++ ':' :: ['4', '2'])) ∧
    bucketKey "date".data
        ⟨"2022-02-04".data, "10:42:33.123".data, "'MessagingTimeout'".data⟩ =
      some "2022-02-04".data :=
  tally_bucket_key_shape
    ⟨"2022-02-04".data, "10:42:33.123".data, "'MessagingTimeout'".data⟩
    ['1', '0'] ['4', '2'] "33.123".data ':'
    rfl (by decide) (by decide) (by decide) (by decide) (by decide) (by decide)

/-- C8: an empty record collection makes the tally operation return the
absent result (Python None), not an empty table. -/
theorem tally_empty_absent (g : PyStr) : tallyResults g [] = some none := rfl

/-- C9: the event names of a returned table are exactly the quote-stripped
name capture groups of the records, and no returned name starts or ends
with a quote character. -/
theorem tally_event_names_stripped (g : PyStr) (rs : List MatchRecord)
    (t : TallyTable) (h : tallyResults g rs = some (some t)) :
    (∀ n, n ∈ t.map Prod.fst ↔ ∃ r ∈ rs, excName r = n) ∧
    (∀ n ∈ t.map Prod.fst, n.head? ≠ some '\'' ∧ n.getLast? ≠ some '\'') := by
  obtain ⟨excs, hl, hne, rfl⟩ := tallyResults_eq h
  have hmf := mapFst_final excs
  have hnames := tallyLoop_names g rs [] excs hl
  constructor
  · intro n
    rw [hmf, hnames, mem_namesFold]
    simp
  · intro n hn
    rw [hmf, hnames, mem_namesFold] at hn
    rcases hn with h0 | ⟨r, hr, rfl⟩
    · simp at h0
    · constructor
      · intro hc
        exact pyStrip_head_not hc rfl
      · intro hc
        exact pyStrip_getLast_not hc rfl

/-- C2 counterexample: an empty aggregation result is stored under the key,
yet the next call recomputes — the aggregation runs twice, not at most
once, because the `or` plus truthiness guard treats the stored empty
payload as a miss. -/
theorem run_cached_recompute_counterexample :
    mpGet (runCached ([] : List (String × Nat)) ⟨[]⟩ 0).2.1 "agent_exceptions" =
        some [] ∧
    (runCached ([] : List (String × Nat))
        (runCached ([] : List (String × Nat)) ⟨[]⟩ 0).2.1
        (runCached ([] : List (String × Nat)) ⟨[]⟩ 0).2.2).2.2 = 2 :=
  ⟨rfl, rfl⟩

/-- C2 as amended: once a non-empty aggregation result is stored under the
key, every later call of the run method returns the stored payload
unchanged and does not run the aggregation again. -/
theorem run_cached_cached_return {α : Type} (agg stored : List (String × α))
    (st : MPCacheState (List (String × α))) (c : Nat)
    (hst : mpGet st "agent_exceptions" = some stored) (hne : stored ≠ []) :
    runCached agg st c = (stored, st, c) := by
  unfold runCached
  rw [hst]
  simp only [Option.getD_some]
  cases stored with
  | nil => exact absurd rfl hne
  | cons a l =>
      rw [if_neg (by simp [List.isEmpty])]

/-- Witness for the amended C2 on a cache holding a one-level table. -/
theorem run_cached_cached_return_witness :
    runCached [("warning", 2)] (⟨[("agent_exceptions", [("error", 1)])]⟩ :
        MPCacheState (List (String × Nat))) 5 =
      ([("error", 1)], ⟨[("agent_exceptions", [("error", 1)])]⟩, 5) :=
  run_cached_cached_return [("warning", 2)] [("error", 1)]
    ⟨[("agent_exceptions", [("error", 1)])]⟩ 5 rfl (by simp)

/-- C3: a scenario whose condition evaluates true against the fact set
emits exactly one issue; in particular the 1927868 scenario raises exactly
one critical bug when the installed neutron-common version satisfies the
bound, and none when the package is absent or the version is fixed. -/
theorem scenario_fires_exactly_one (facts : String → Option Bool)
    (s : ScenarioDef) (h : evalCond facts s.cond = true) :
    (fireScenario facts s).length = 1 ∧
    fireScenario factsBuggy scenario1927868 = [scenario1927868.concl1.issue] ∧
    scenario1927868.concl1.issue.itype = "critical-bug" ∧
    fireScenario factsAbsent scenario1927868 = [] ∧
    fireScenario factsFixed scenario1927868 = [] := by
  refine ⟨?_, rfl, rfl, rfl, rfl⟩
  rw [fireScenario, if_pos h]
  rfl

/-- Witness for C3 on the buggy-version fact set. -/
theorem scenario_fires_exactly_one_witness :
    (fireScenario factsBuggy scenario1927868).length = 1 ∧
    fireScenario factsBuggy scenario1927868 = [scenario1927868.concl1.issue] ∧
    scenario1927868.concl1.issue.itype = "critical-bug" ∧
    fireScenario factsAbsent scenario1927868 = [] ∧
    fireScenario factsFixed scenario1927868 = [] :=
  scenario_fires_exactly_one factsBuggy scenario1927868 rfl

/-- C5: the stats summary is computed over the whole sample population:
its count field equals the population size whatever `top_n` is, while the
reported top list is truncated to `min top_n size` entries. -/
theorem stats_full_population (f : ℚ → ℚ) (samples : List EventSample)
    (top_n : Nat) (t : List EventSample) (st : StatsSummary)
    (h : computeEventStats f samples top_n = some (t, st)) :
    st.samples = samples.length ∧ t.length = min top_n samples.length := by
  unfold computeEventStats at h
  cases hs : mkSummary f samples with
  | none => rw [hs] at h; cases h
  | some st0 =>
      rw [hs] at h
      obtain ⟨ht, hst⟩ := Prod.mk.inj (Option.some.inj h)
      constructor
      · rw [← hst]
        unfold mkSummary at hs
        by_cases he : samples.isEmpty
        · rw [if_pos he] at hs
          cases hs
        · rw [if_neg he] at hs
          obtain rfl := Option.some.inj hs
          rfl
      · rw [← ht]
        unfold topNSorted
        rw [List.length_take, (perm_insSort _ _).length_eq]

/-- Witness for C5: 2500-sample behaviour in miniature — six samples with
`top_n = 5`: the summary counts all six while the top list holds five. -/
theorem stats_full_population_witness :
    ∃ p : List EventSample × StatsSummary,
      computeEventStats (fun _ => 0) sampleEvents 5 = some p ∧
      p.2.samples = sampleEvents.length ∧
      p.1.length = min 5 sampleEvents.length := by
  refine ⟨_, rfl, stats_full_population (fun _ => 0) sampleEvents 5 _ _ rfl⟩

/-- C10: inside one definitions section the events run in order and the
first event with an empty top-N list stops the section: it yields no entry
and the remaining events of that section are skipped whatever their
samples, while other sections are unaffected. -/
theorem process_results_section_break (f : ℚ → ℚ)
    (so : String → List EventSample) (defs1 defs2 : List (String × List String))
    (sec : String) (evs1 : List String) (e : String) (evs2 : List String)
    (h1 : ∀ x ∈ evs1, topNSorted (so x) 5 ≠ [])
    (h2 : topNSorted (so e) 5 = []) :
    processResults f so (defs1 ++ (sec, evs1 ++ e :: evs2) :: defs2) =
      processResults f so (defs1 ++ (sec, evs1) :: defs2) := by
  unfold processResults
  rw [List.foldl_append, List.foldl_append, List.foldl_cons, List.foldl_cons]
  rw [processEvents_break f so evs1 e evs2 h1 h2]

/-- Witness for C10: the event with no samples erases itself and the later
event of its section, the other section is untouched. -/
theorem process_results_section_break_witness :
    processResults (fun _ => 0) sampleSamplesOf
        [("sec-a", ["good-event", "empty-event", "later-event"]),
         ("sec-b", ["other-event"])] =
      processResults (fun _ => 0) sampleSamplesOf
        [("sec-a", ["good-event"]), ("sec-b", ["other-event"])] :=
  process_results_section_break (fun _ => 0) sampleSamplesOf []
    [("sec-b", ["other-event"])] "sec-a" ["good-event"] "empty-event"
    ["later-event"]
    (by
      intro x hx
      rw [List.mem_singleton] at hx
      subst hx
      exact fun hc => List.noConfusion hc)
    rfl

/-- Witness for C9: a record with a quoted name group contributes its
unquoted name to the table. -/
theorem tally_event_names_stripped_witness :
    (∀ n, n ∈ ([("MessagingTimeout".data,
          [("2022-02-04".data, 2), ("2022-02-09".data, 1)])] : TallyTable).map
            Prod.fst ↔
        ∃ r ∈ sampleRecords, excName r = n) ∧
    (∀ n ∈ ([("MessagingTimeout".data,
          [("2022-02-04".data, 2), ("2022-02-09".data, 1)])] : TallyTable).map
            Prod.fst,
        n.head? ≠ some '\'' ∧ n.getLast? ≠ some '\'') :=
  tally_event_names_stripped "date".data sampleRecords
    [("MessagingTimeout".data, [("2022-02-04".data, 2), ("2022-02-09".data, 1)])]
    rfl
